import Mathlib

/-!
Shallow embedding of burrow's versioned state store core:
`storage.Prefix` and `prefixIterator` (src/unnamed/part_004) and the
execution `State` (src/execution/config.go).  Byte strings are lists of
naturals below 256; machine `uint64` values are naturals (all arithmetic
performed on them here stays below 2^64 by construction).
-/

namespace Burrow

/-- A byte string: Go `[]byte`, each element a byte value. -/
abbrev Bytes := List Nat

/-- Every element is a byte (fits in `uint8`). -/
def IsBytes (bs : Bytes) : Prop := ∀ b ∈ bs, b < 256

instance : DecidablePred IsBytes := fun bs =>
  List.decidableBAll (fun b => b < 256) bs

/-- Strict lexicographic order on byte strings (the physical backend's key
order): element-wise comparison, a proper prefix sorts first. -/
abbrev BLt (a b : Bytes) : Prop := List.Lex (· < ·) a b

/-! ## storage.Prefix (src/unnamed/part_004) -/

namespace Pfx

/-- `Prefix.Key`: the physical key is the prefix followed by the local key. -/
def key (p k : Bytes) : Bytes := p ++ k

/-- `Prefix.Suffix`: strips the prefix from a physical key. -/
def suffix (p g : Bytes) : Bytes := g.drop p.length

/-- `Prefix.Above`: scans the prefix from its last byte backwards for the
first byte below `0xFF`, increments it and truncates there; `none` when every
byte is `0xFF` (Go returns `nil`).  The recursion tries the tail (later
bytes) first, which is exactly the backwards scan of the source loop. -/
def above : Bytes → Option Bytes
  | [] => none
  | c :: rest =>
    match above rest with
    | some r => some (c :: r)
    | none => if c < 255 then some [c + 1] else none

/-- `Prefix.Below`: scans the prefix from its last byte backwards for the
first byte above `0x00`, decrements it and truncates there; `none` when every
byte is `0x00` (Go returns `nil`). -/
def below : Bytes → Option Bytes
  | [] => none
  | c :: rest =>
    match below rest with
    | some r => some (c :: r)
    | none => if 0 < c then some [c - 1] else none

end Pfx

/-! ## prefixIterator (src/unnamed/part_004) -/

/-- Go `bytes.Equal(k, skipKey)` where `skipKey` may be `nil`: a `nil` slice
is equal to an empty one. -/
def bytesEqualOpt (k : Bytes) (sk : Option Bytes) : Bool :=
  match sk with
  | none => k.isEmpty
  | some s => decide (k = s)

/-- `skipOne`: if the first item of the underlying iterator is `skipKey`,
skip it.  The underlying `dbm.Iterator` is modelled by its remaining
entries, in yield order. -/
def skipOne (entries : List (Bytes × Bytes)) (skipKey : Option Bytes) :
    List (Bytes × Bytes) :=
  match entries with
  | [] => entries
  | (k, _) :: rest => if bytesEqualOpt k skipKey then rest else entries

/-- The `prefixIterator` adapter state: the logical sub-store's prefix, the
remaining entries of the underlying iterator, and the terminal `invalid`
flag. -/
structure PIter where
  pfx : Bytes
  source : List (Bytes × Bytes)
  invalid : Bool
  deriving DecidableEq

namespace PIter

/-- `prefixIterator.validate`: once invalid, nothing happens; otherwise the
iterator becomes invalid when the underlying iterator is exhausted or the
underlying key no longer carries the prefix. -/
def validate (pi : PIter) : PIter :=
  if pi.invalid then pi
  else
    match pi.source with
    | [] => { pi with invalid := true }
    | (k, _) :: _ =>
      if pi.pfx.isPrefixOf k then pi else { pi with invalid := true }

/-- `prefixIterator.Valid`: validates, then reports whether the iterator is
not invalid and the underlying iterator is valid.  Returns the updated
state alongside the answer, since `validate` mutates the receiver. -/
def valid (pi : PIter) : Bool × PIter :=
  let pv := pi.validate
  (!pv.invalid && !pv.source.isEmpty, pv)

/-- `prefixIterator.Next`: panics in Go when invalid (modelled as leaving
the state unchanged — it never yields again either way); otherwise advances
the underlying iterator and re-validates. -/
def next (pi : PIter) : PIter :=
  if pi.invalid then pi
  else validate { pi with source := pi.source.tail }

/-- `prefixIterator.Key`: panics in Go when invalid (modelled as `none`);
otherwise the underlying key with the prefix stripped. -/
def key (pi : PIter) : Option Bytes :=
  if pi.invalid then none
  else pi.source.head?.map (fun e => Pfx.suffix pi.pfx e.1)

/-- `prefixIterator.Value`: panics in Go when invalid (modelled as `none`). -/
def value (pi : PIter) : Option Bytes :=
  if pi.invalid then none
  else pi.source.head?.map (fun e => e.2)

end PIter

/-- The state-mutating operations a caller can apply to a `prefixIterator`. -/
inductive IterOp
  | next
  | valid
  deriving DecidableEq

/-- Apply one operation to the iterator, keeping the mutated state. -/
def IterOp.step : IterOp → PIter → PIter
  | .next, pi => pi.next
  | .valid, pi => (pi.valid).2

/-- Run a sequence of iterator operations. -/
def runOps (ops : List IterOp) (pi : PIter) : PIter :=
  ops.foldl (fun st op => op.step st) pi

/-! ## Reverse iterator bound selection (src/unnamed/part_004,
`Prefix.ReverseIterator`) -/

/-- The pair of physical bounds handed to the underlying reverse iterator. -/
structure RevBounds where
  pstart : Option Bytes
  pend : Option Bytes
  deriving DecidableEq

/-- The physical bounds `Prefix.ReverseIterator` computes: `pstart` is
`Above()` when `start` is nil, else `Key(start)`; `pend` is `Below()` when
`end` is nil, else `Key(end)`. -/
def reverseIteratorBounds (p : Bytes) (start stop : Option Bytes) : RevBounds :=
  { pstart :=
      match start with
      | none => Pfx.above p
      | some s => some (Pfx.key p s)
    pend :=
      match stop with
      | none => Pfx.below p
      | some e => some (Pfx.key p e) }

/-- The underlying entry stream of `Prefix.ReverseIterator`: the physical
reverse iterator opened at the computed bounds, with a leading `Above()`
key skipped.  `iteratorFn` abstracts the backend's `ReverseIterator`. -/
def reverseIteratorSource (p : Bytes) (start stop : Option Bytes)
    (iteratorFn : Option Bytes → Option Bytes → List (Bytes × Bytes)) :
    List (Bytes × Bytes) :=
  let b := reverseIteratorBounds p start stop
  skipOne (iteratorFn b.pstart b.pend) (Pfx.above p)

/-- The physical bounds as the specification describes them: the scan always
starts at `Above()`, and the physical end bound is `Key(start)` when `start`
is given, else `Below()`. -/
def reverseIteratorBoundsClaimed (p : Bytes) (start _stop : Option Bytes) :
    RevBounds :=
  { pstart := Pfx.above p
    pend :=
      match start with
      | none => Pfx.below p
      | some s => some (Pfx.key p s) }

/-! ## Key-value maps

The contents of a key-value region (`storage.KVStore` / the readable
contents of the versioned tree) as an association list with unique keys:
`Set` replaces, `Get` of a missing key is the `nil` (empty) byte string, as
in the Go backends. -/

abbrev KVMap := List (Bytes × Bytes)

/-- `Delete`: removes the binding for `k`. -/
def kvDelete (m : KVMap) (k : Bytes) : KVMap :=
  m.filter (fun e => e.1 ≠ k)

/-- `Set`: binds `k` to `v`, replacing any previous binding. -/
def kvSet (m : KVMap) (k v : Bytes) : KVMap :=
  (k, v) :: kvDelete m k

/-- `Get`: the bound value, or the empty (nil) byte string when absent. -/
def kvGet : KVMap → Bytes → Bytes
  | [], _ => []
  | (k, v) :: rest, k' => if k = k' then v else kvGet rest k'

/-- `Has`: whether a binding for `k` exists. -/
def kvHas (m : KVMap) (k : Bytes) : Bool :=
  m.any (fun e => e.1 = k)

/-! ## Key formats (src/execution/config.go)

Modelled from the spec: `storage.NewMustKeyFormat` itself is not part of
the source sample; per spec §3 (Key Formats) and §6 (persisted layout) a
key format renders as the tag byte followed by the fixed-width segments,
`uint64` segments as 8-byte big-endian, and decoding the suffix after the
tag recovers the original field values.  The tag bytes below are the ones
declared in src/execution/config.go. -/

/-- 8-byte big-endian rendering of a `uint64`. -/
def u64be (n : Nat) : Bytes :=
  [n / 72057594037927936 % 256, n / 281474976710656 % 256,
   n / 1099511627776 % 256, n / 4294967296 % 256, n / 16777216 % 256,
   n / 65536 % 256, n / 256 % 256, n % 256]

/-- Big-endian value of a byte string. -/
def u64beVal (bs : Bytes) : Nat :=
  bs.foldl (fun a b => a * 256 + b) 0

/-- `blockRefKeyFormat = NewMustKeyFormat("b", uint64Length)`:
`"b" ++ height`. -/
def blockRefKey (height : Nat) : Bytes := 98 :: u64be height

/-- `txRefKeyFormat = NewMustKeyFormat("t", uint64Length, uint64Length)`:
`"t" ++ height ++ index`. -/
def txRefKey (height index : Nat) : Bytes :=
  116 :: (u64be height ++ u64be index)

/-- `txKeyFormat = NewMustKeyFormat("b", tmhash.Size)`: `"b" ++ txhash`.
Note the tag byte is `"b"` (0x62) in the source, not `"t"`. -/
def txKey (txHash : Bytes) : Bytes := 98 :: txHash

/-- `commitKeyFormat = NewMustKeyFormat("x", tmhash.Size)`: `"x" ++ hash`. -/
def commitKey (hash : Bytes) : Bytes := 120 :: hash

/-- `storageKeyFormat = NewMustKeyFormat("s", AddressLength, Word256Length)`:
`"s" ++ address ++ word`. -/
def storageKey (address word : Bytes) : Bytes :=
  115 :: (address ++ word)

/-- `txRefKeyFormat.Scan`: recovers `(height, index)` from
`"t" ++ height ++ index`. -/
def txRefScan (bs : Bytes) : Nat × Nat :=
  (u64beVal ((bs.drop 1).take 8), u64beVal ((bs.drop 9).take 8))

/-! ## Words (binary package)

Modelled from the spec: `binary.Word256` / `LeftPadWord256` are outside the
source sample; per spec §8 a missing storage value reads back as the
zero-padded word. -/

/-- The all-zero 32-byte word, `binary.Zero256`. -/
def zero256 : Bytes := List.replicate 32 0

/-- `binary.LeftPadWord256`: left-pads a byte string to 32 bytes. -/
def leftPadWord256 (bs : Bytes) : Bytes :=
  List.replicate (32 - bs.length) 0 ++ bs

/-! ## Block executions and the external codec -/

/-- A transaction execution record, reduced to the field the state store
reads: its transaction hash. -/
structure TxExecution where
  txHash : Bytes
  deriving DecidableEq

/-- A block execution record: its height and contained transaction
executions. -/
structure BlockExecution where
  height : Nat
  txExecutions : List TxExecution
  deriving DecidableEq

/-- Modelled from the spec: the external binary codec for `BlockExecution`
(spec §6: any round-trip-consistent binary codec), as a concrete injective
encoding — height, then each transaction hash length-prefixed. -/
def encodeBlockExecution (be : BlockExecution) : Bytes :=
  u64be be.height ++
    (be.txExecutions.map (fun t => u64be t.txHash.length ++ t.txHash)).flatten

/-- Decodes a length-prefixed sequence of transaction hashes;
fuel-bounded. -/
def decodeTxsAux : Nat → Bytes → Option (List TxExecution)
  | _, [] => some []
  | 0, _ :: _ => none
  | fuel + 1, bs =>
    let n := u64beVal (bs.take 8)
    if bs.length < 8 + n then none
    else
      match decodeTxsAux fuel (bs.drop (8 + n)) with
      | some rest => some ({ txHash := (bs.drop 8).take n } :: rest)
      | none => none

/-- Modelled from the spec: `exec.DecodeBlockExecution`, the inverse of the
codec above; fails on unparseable input. -/
def decodeBlockExecution (bs : Bytes) : Option BlockExecution :=
  if bs.length < 8 then none
  else
    match decodeTxsAux bs.length (bs.drop 8) with
    | some txs => some { height := u64beVal (bs.take 8), txExecutions := txs }
    | none => none

/-- `CommitID`: the durable binding from a content hash to chain height and
tree version. -/
structure CommitID where
  hash : Bytes
  height : Nat
  version : Int
  deriving DecidableEq

/-- Modelled from the spec: the external codec for `CommitID` (spec §6), as
a concrete injective encoding — sign byte plus magnitude for the `int64`
version. -/
def encodeCommitID (c : CommitID) : Bytes :=
  u64be c.hash.length ++ c.hash ++ u64be c.height ++
    ((if c.version < 0 then 1 else 0) :: u64be c.version.natAbs)

/-- Modelled from the spec: decoding of a stored `CommitID`; fails on
unparseable input (in particular on the empty string a missing reference
reads back as). -/
def decodeCommitID (bs : Bytes) : Option CommitID :=
  if bs.length < 8 then none
  else
    let n := u64beVal (bs.take 8)
    let rest := bs.drop 8
    if rest.length < n then none
    else
      let rest2 := rest.drop n
      if rest2.length = 17 then
        some { hash := rest.take n
               height := u64beVal (rest2.take 8)
               version :=
                 if rest2.getD 8 0 = 0 then (u64beVal (rest2.drop 9) : Int)
                 else -(u64beVal (rest2.drop 9) : Int) }
      else none

/-! ## The execution State (src/execution/config.go) -/

/-- The aggregate `State`: the in-memory height counter, the readable
contents of the versioned tree (an external capability, abstracted to its
key-value contents), the version the tree is pointed at, and the
non-versioned reference space. -/
structure State where
  height : Nat
  tree : KVMap
  treeVersion : Int
  refs : KVMap
  deriving DecidableEq

/-- The errors `writeState.AddBlock` can return.  With the modelled codec
total, the `be.Encode()` error branch of the source is unreachable, so the
only error is the height mismatch. -/
inductive AddBlockError
  | heightMismatch (got last : Nat)
  deriving DecidableEq

/-- `writeState.addTx`: stores the transaction reference
`txKeyFormat.Key(txHash) ↦ txRefKeyFormat.Key(height, index)` in the
reference space. -/
def addTx (s : State) (txHash : Bytes) (height index : Nat) : State :=
  { s with refs := kvSet s.refs (txKey txHash) (txRefKey height index) }

/-- The indexing loop of `AddBlock`: `for i, txe := range be.TxExecutions`,
starting at index `i`. -/
def indexTxs (s : State) (height : Nat) :
    List TxExecution → Nat → State
  | [], _ => s
  | txe :: rest, i => indexTxs (addTx s txe.txHash height i) height rest (i + 1)

/-- 2^64, the modulus of Go's `uint64` arithmetic. -/
def two64 : Nat := 18446744073709551616

/-- `writeState.AddBlock`: rejects any height other than `height + 1`
(the sum computed in `uint64` arithmetic, so it wraps to `0` at current
height `2^64 - 1`) unless the current height is `0`; otherwise advances
the height, indexes every contained transaction by its hash, and stores
the encoded block under the block-by-height key in the reference space.
Returned alongside the possibly mutated state, mirroring mutation of the
Go receiver. -/
def addBlock (s : State) (be : BlockExecution) :
    Except AddBlockError Unit × State :=
  if s.height > 0 ∧ be.height ≠ (s.height + 1) % two64 then
    (Except.error (AddBlockError.heightMismatch be.height s.height), s)
  else
    let s1 := { s with height := be.height }
    let s2 := indexTxs s1 be.height be.txExecutions 0
    let bs := encodeBlockExecution be
    (Except.ok (),
     { s2 with refs := kvSet s2.refs (blockRefKey be.height) bs })

/-- `State.GetBlock`: reads the block bytes from the *versioned tree* (note:
not from the reference space `AddBlock` writes to) and decodes them;
absence is not an error. -/
def getBlock (s : State) (height : Nat) :
    Except String (Option BlockExecution) :=
  let bs := kvGet s.tree (blockRefKey height)
  if bs.length = 0 then Except.ok none
  else
    match decodeBlockExecution bs with
    | some be => Except.ok (some be)
    | none => Except.error "could not decode BlockExecution"

/-- `State.GetTx`: reads the transaction reference from the *versioned
tree* (note: not from the reference space `addTx` writes to); absence is
not an error; an in-range resolved index returns the indexed transaction,
an out-of-range one an integrity error.  When the referenced block is
absent the source dereferences a nil pointer (a panic), modelled as an
error. -/
def getTx (s : State) (txHash : Bytes) :
    Except String (Option TxExecution) :=
  let bs := kvGet s.tree (txKey txHash)
  if bs.length = 0 then Except.ok none
  else
    let hi := txRefScan bs
    match getBlock s hi.1 with
    | Except.error _ => Except.error "error getting block containing tx"
    | Except.ok none => Except.error "nil BlockExecution dereferenced"
    | Except.ok (some be) =>
      if h : hi.2 < be.txExecutions.length then
        Except.ok (some (be.txExecutions.get ⟨hi.2, h⟩))
      else
        Except.error "retrieved index out of range for block"

/-- `State.GetStorage`: the stored value left-padded to a word; a missing
slot reads back as the zero word. -/
def getStorage (s : State) (address key : Bytes) : Bytes :=
  leftPadWord256 (kvGet s.tree (storageKey address key))

/-- `writeState.SetStorage`: setting the zero word deletes the key,
anything else stores the word's bytes. -/
def setStorage (s : State) (address key value : Bytes) : State :=
  if value = zero256 then
    { s with tree := kvDelete s.tree (storageKey address key) }
  else
    { s with tree := kvSet s.tree (storageKey address key) value }

/-- The physical database as `LoadState` sees it: the reference space
region, plus the versioned tree's previously sealed versions — the tree is
an external capability (spec §4.2) whose persisted layout is opaque, so it
is abstracted to a map from version to sealed contents. -/
structure DB where
  refs : KVMap
  versions : List (Int × KVMap)
  deriving DecidableEq

/-- The tree capability's `Load(version)`: the sealed contents at that
version, if it exists. -/
def treeLoad (versions : List (Int × KVMap)) (v : Int) : Option KVMap :=
  (versions.find? (fun e => e.1 = v)).map (fun e => e.2)

/-- `NewState`: a fresh state over the database — height `0`, an empty
working tree at version `0`, the reference space backed by the database. -/
def newState (db : DB) : State :=
  { height := 0, tree := [], treeVersion := 0, refs := db.refs }

/-- A fresh state over an empty database. -/
def initialState : State :=
  newState { refs := [], versions := [] }

/-- `LoadState`: resolves the `CommitID` stored under the commit key for
`hash`, requires a positive version, loads the tree at that version;
failures are modelled as `none`.  The `height` field of the decoded
`CommitID` is never used. -/
def loadState (db : DB) (hash : Bytes) : Option State :=
  match decodeCommitID (kvGet (newState db).refs (commitKey hash)) with
  | none => none
  | some c =>
    if c.version ≤ 0 then none
    else
      match treeLoad db.versions c.version with
      | none => none
      | some contents =>
        some { newState db with tree := contents, treeVersion := c.version }

/-! ## Claim-level notions and concrete instances -/

/-- `q` is strictly greater, in the backend's lexicographic order, than
every byte string that begins with `p`. -/
def StrictUpper (p q : Bytes) : Prop := ∀ s, p <+: s → BLt s q

/-- `q` is strictly less, in the backend's lexicographic order, than every
byte string that begins with `p`. -/
def StrictLower (p q : Bytes) : Prop := ∀ s, p <+: s → BLt q s

/-- A 32-byte transaction hash. -/
def c1TxHash : Bytes := List.replicate 32 7

/-- A block execution at height 1 containing one transaction. -/
def c1Block : BlockExecution :=
  { height := 1, txExecutions := [{ txHash := c1TxHash }] }

/-- The content hash used by the C6 witness. -/
def c6Hash : Bytes := List.replicate 32 3

/-- A commit record binding `c6Hash` to height 5 and version 1. -/
def c6Commit : CommitID := { hash := c6Hash, height := 5, version := 1 }

/-- A database holding the commit record and sealed version 1. -/
def c6DB : DB :=
  { refs := [(commitKey c6Hash, encodeCommitID c6Commit)]
    versions := [(1, [([1], [2])])] }

/-- The state `LoadState` produces from `c6DB`. -/
def c6State : State :=
  { height := 0, tree := [([1], [2])], treeVersion := 1, refs := c6DB.refs }

/-- A concrete physical reverse-iterator stream whose first key is the
`Above()` bound of the sub-store prefixed `[1]`. -/
def c4Fn : Option Bytes → Option Bytes → List (Bytes × Bytes) :=
  fun _ _ => [([2], [9]), ([1, 3], [7])]

instance {ε α : Type} [DecidableEq ε] [DecidableEq α] :
    DecidableEq (Except ε α) := fun x y =>
  match x, y with
  | .ok a, .ok b =>
    if h : a = b then isTrue (by rw [h])
    else isFalse (by intro hc; cases hc; exact h rfl)
  | .ok _, .error _ => isFalse (by intro hc; cases hc)
  | .error _, .ok _ => isFalse (by intro hc; cases hc)
  | .error e, .error f =>
    if h : e = f then isTrue (by rw [h])
    else isFalse (by intro hc; cases hc; exact h rfl)

/-! ## Key-value map lemmas -/

theorem kvGet_kvDelete_same (m : KVMap) (k : Bytes) :
    kvGet (kvDelete m k) k = [] := by
  induction m with
  | nil => rfl
  | cons e rest ih =>
    by_cases h : e.1 = k
    · simpa [kvDelete, h] using ih
    · simpa [kvDelete, kvGet, h] using ih

theorem kvGet_kvDelete_ne (m : KVMap) (k k' : Bytes) (h : k' ≠ k) :
    kvGet (kvDelete m k) k' = kvGet m k' := by
  induction m with
  | nil => rfl
  | cons e rest ih =>
    by_cases he : e.1 = k
    · have hk : ¬ k = k' := fun hc => h hc.symm
      simpa [kvDelete, kvGet, List.filter_cons, he, hk] using ih
    · by_cases he' : e.1 = k'
      · simp [kvDelete, kvGet, List.filter_cons, he, he', h]
      · simpa [kvDelete, kvGet, List.filter_cons, he, he'] using ih

theorem kvGet_kvSet_same (m : KVMap) (k v : Bytes) :
    kvGet (kvSet m k v) k = v := by
  simp [kvSet, kvGet]

theorem kvGet_kvSet_ne (m : KVMap) (k v k' : Bytes) (h : k' ≠ k) :
    kvGet (kvSet m k v) k' = kvGet m k' := by
  have : k ≠ k' := fun hc => h hc.symm
  simp [kvSet, kvGet, this, kvGet_kvDelete_ne m k k' h]

theorem kvHas_kvDelete_same (m : KVMap) (k : Bytes) :
    kvHas (kvDelete m k) k = false := by
  induction m with
  | nil => rfl
  | cons e rest ih =>
    by_cases h : e.1 = k
    · rw [show kvDelete (e :: rest) k = kvDelete rest k by
        simp [kvDelete, List.filter_cons, h]]
      exact ih
    · simp [kvDelete, kvHas, List.filter_cons, h, ih]

/-- `indexTxs` only writes the reference space: the height field is kept. -/
theorem indexTxs_height (l : List TxExecution) (s : State) (h i : Nat) :
    (indexTxs s h l i).height = s.height := by
  induction l generalizing s i with
  | nil => rfl
  | cons t rest ih => simpa [indexTxs, addTx] using ih _ _

/-- Counterexample for C2: at current height `2^64 - 1` (reachable via the
genesis bootstrap) Go's `height+1` wraps to `0`, so `AddBlock({Height:0})`
succeeds and advances the height to `0`, although `0` is neither the
current height plus one nor is the current height zero — refuting the
claim's "for any other be.Height it fails with a height-mismatch error". -/
theorem addBlock_wrap_counterexample :
    (State.mk 18446744073709551615 [] 0 []).height ≠ 0 ∧
    (0 : Nat) ≠ (State.mk 18446744073709551615 [] 0 []).height + 1 ∧
    (addBlock (State.mk 18446744073709551615 [] 0 [])
        (BlockExecution.mk 0 [])).1 = Except.ok () ∧
    ((addBlock (State.mk 18446744073709551615 [] 0 [])
        (BlockExecution.mk 0 [])).2).height = 0 := by
  refine ⟨by decide, by decide, by decide, by decide⟩

/-- C2 (amended): `AddBlock(be)` succeeds and advances the in-memory
height to `be.Height` exactly when the current height is `0` or
`be.Height` is the `uint64` sum of the current height and one (which
wraps to `0` at current height `2^64 - 1`), and fails with a
height-mismatch error otherwise; in particular, on a fresh state
`AddBlock` at height 1 succeeds, a subsequent `AddBlock` at height 3
fails with the sequencing error, and `AddBlock` at height 2 then
succeeds. -/
theorem addBlock_height_sequencing :
    (∀ (s : State) (be : BlockExecution),
      if s.height = 0 ∨ be.height = (s.height + 1) % two64
      then (addBlock s be).1 = Except.ok () ∧
           ((addBlock s be).2).height = be.height
      else (addBlock s be).1 =
           Except.error (AddBlockError.heightMismatch be.height s.height)) ∧
    ((addBlock initialState ⟨1, []⟩).1 = Except.ok () ∧
     ((addBlock initialState ⟨1, []⟩).2).height = 1 ∧
     (addBlock ((addBlock initialState ⟨1, []⟩).2) ⟨3, []⟩).1
       = Except.error (AddBlockError.heightMismatch 3 1) ∧
     (addBlock ((addBlock ((addBlock initialState ⟨1, []⟩).2) ⟨3, []⟩).2)
        ⟨2, []⟩).1 = Except.ok () ∧
     ((addBlock ((addBlock ((addBlock initialState ⟨1, []⟩).2) ⟨3, []⟩).2)
        ⟨2, []⟩).2).height = 2) := by
  constructor
  · intro s be
    by_cases h : s.height = 0 ∨ be.height = (s.height + 1) % two64
    · rw [if_pos h]
      have hg : ¬ (s.height > 0 ∧ be.height ≠ (s.height + 1) % two64) := by
        rintro ⟨hpos, hne⟩
        rcases h with h0 | h1
        · omega
        · exact hne h1
      refine ⟨by simp [addBlock, hg], ?_⟩
      simp only [addBlock, if_neg hg]
      exact indexTxs_height _ _ _ _
    · have hg : s.height > 0 ∧ be.height ≠ (s.height + 1) % two64 := by
        push_neg at h
        exact ⟨Nat.pos_of_ne_zero h.1, h.2⟩
      rw [if_neg h]
      simp [addBlock, hg]
  · exact ⟨by decide, by decide, by decide, by decide, by decide⟩

/-- C10: when `AddBlock` returns the height-mismatch error, the state is
left completely unchanged — the error branch returns before any mutation. -/
theorem addBlock_mismatch_unchanged (s : State) (be : BlockExecution)
    (g l : Nat)
    (h : (addBlock s be).1 = Except.error (AddBlockError.heightMismatch g l)) :
    (addBlock s be).2 = s := by
  by_cases hg : s.height > 0 ∧ be.height ≠ (s.height + 1) % two64
  · simp [addBlock, hg]
  · simp [addBlock, hg] at h

/-- Witness for C10 at a concrete mismatching input. -/
theorem addBlock_mismatch_unchanged_witness :
    (addBlock (State.mk 1 [] 0 []) (BlockExecution.mk 3 [])).1
      = Except.error (AddBlockError.heightMismatch 3 1) ∧
    (addBlock (State.mk 1 [] 0 []) (BlockExecution.mk 3 [])).2
      = State.mk 1 [] 0 [] :=
  ⟨by decide, addBlock_mismatch_unchanged _ _ 3 1 (by decide)⟩

/-- C7: setting the zero word deletes the storage key, so reading the slot
back returns the zero-padded word while the underlying key is absent from
the backend. -/
theorem setStorage_zero_clears (s : State) (address key : Bytes) :
    getStorage (setStorage s address key zero256) address key = zero256 ∧
    kvHas (setStorage s address key zero256).tree (storageKey address key)
      = false := by
  constructor
  · simp [setStorage, getStorage, kvGet_kvDelete_same, leftPadWord256, zero256]
  · simp [setStorage, kvHas_kvDelete_same]

/-- C8: physical keys are exactly the prefix followed by the local key, so
two sub-stores whose prefixes do not nest never collide. -/
theorem prefix_keys_disjoint (p1 p2 k1 k2 : Bytes)
    (h1 : ¬ p1 <+: p2) (h2 : ¬ p2 <+: p1) :
    Pfx.key p1 k1 ≠ Pfx.key p2 k2 := by
  intro h
  unfold Pfx.key at h
  rcases List.append_eq_append_iff.mp h with ⟨a, ha, _⟩ | ⟨c, hc, _⟩
  · exact h1 ⟨a, ha.symm⟩
  · exact h2 ⟨c, hc.symm⟩

/-- Witness for C8: the sub-stores `"x"` and `"y"` never collide on the
local key `"k1"`. -/
theorem prefix_keys_disjoint_witness :
    Pfx.key [120] [107, 49] ≠ Pfx.key [121] [107, 49] :=
  prefix_keys_disjoint [120] [121] [107, 49] [107, 49] (by decide) (by decide)

/-- C1: committing a block at height 1 containing a transaction with hash
`H` stores the reference under the reference space, but `GetTx(H)` reads
the versioned tree instead of the reference space and therefore returns
absent — the indexed transaction is never retrievable. -/
theorem getTx_reads_tree_not_refs :
    (addBlock initialState c1Block).1 = Except.ok () ∧
    kvGet ((addBlock initialState c1Block).2).refs (txKey c1TxHash)
      = txRefKey 1 0 ∧
    getTx ((addBlock initialState c1Block).2) c1TxHash = Except.ok none := by
  refine ⟨by decide, by decide, ?_⟩
  decide

/-- C6: whenever `LoadState` succeeds, the returned state's tree is
repointed at the decoded `CommitID`'s (positive) version, but the
in-memory height counter keeps its initial value `0` — it is not restored
from the `CommitID`'s height field. -/
theorem loadState_height_not_restored (db : DB) (hash : Bytes) (st : State)
    (h : loadState db hash = some st) :
    st.height = 0 ∧
    ∃ c, decodeCommitID (kvGet db.refs (commitKey hash)) = some c ∧
      0 < c.version ∧ st.treeVersion = c.version ∧
      treeLoad db.versions c.version = some st.tree := by
  unfold loadState at h
  cases hd : decodeCommitID (kvGet (newState db).refs (commitKey hash)) with
  | none => rw [hd] at h; cases h
  | some c =>
    rw [hd] at h
    dsimp only at h
    by_cases hv : c.version ≤ 0
    · simp [hv] at h
    · cases ht : treeLoad db.versions c.version with
      | none => simp [hv, ht] at h
      | some contents =>
        rw [if_neg hv, ht] at h
        cases h
        have hd' : decodeCommitID (kvGet db.refs (commitKey hash)) = some c := hd
        exact ⟨rfl, c, hd', by omega, rfl, ht⟩

/-- Witness for C6: loading a commit whose recorded height is 5 yields a
state at tree version 1 whose height counter is still 0. -/
theorem loadState_height_not_restored_witness :
    loadState c6DB c6Hash = some c6State ∧ c6State.height = 0 ∧
    c6State.treeVersion = 1 ∧ c6Commit.height = 5 :=
  ⟨by decide, (loadState_height_not_restored c6DB c6Hash c6State (by decide)).1,
   by decide, by decide⟩

/-- Counterexample for C5: after committing a block with one transaction,
nothing is stored under the tag-`"t"` key the claim names — the reference
actually sits under tag `"b"` (0x62). -/
theorem txRefKeyTag_counterexample :
    (addBlock initialState c1Block).1 = Except.ok () ∧
    kvGet ((addBlock initialState c1Block).2).refs (116 :: c1TxHash) = [] ∧
    kvGet ((addBlock initialState c1Block).2).refs (98 :: c1TxHash)
      = txRefKey 1 0 := by
  refine ⟨by decide, by decide, ?_⟩
  decide

/-- The key under which `addTx` stores a hash is injective in the hash. -/
theorem txKey_inj {a b : Bytes} (h : txKey a = txKey b) : a = b := by
  simpa [txKey] using h

/-- Keys not indexed by the loop keep their prior binding. -/
theorem indexTxs_refs_other (l : List TxExecution) (s : State) (h i : Nat)
    (k : Bytes) (hk : ∀ t ∈ l, txKey t.txHash ≠ k) :
    kvGet (indexTxs s h l i).refs k = kvGet s.refs k := by
  induction l generalizing s i with
  | nil => rfl
  | cons t rest ih =>
    have h1 : txKey t.txHash ≠ k := hk t (List.mem_cons_self t rest)
    rw [indexTxs,
      ih (addTx s t.txHash h i) (i + 1) (fun t' ht' => hk t' (List.mem_cons_of_mem t ht'))]
    exact kvGet_kvSet_ne _ _ _ _ (fun hc => h1 hc.symm)

/-- The indexing loop binds the `j`-th transaction hash to the block height
and its index, offset by the loop's starting index. -/
theorem indexTxs_refs_get (l : List TxExecution) (s : State) (h i0 : Nat)
    (hnodup : (l.map (fun t => t.txHash)).Nodup) (j : Nat)
    (hj : j < l.length) :
    kvGet (indexTxs s h l i0).refs (txKey (l.get ⟨j, hj⟩).txHash)
      = txRefKey h (i0 + j) := by
  induction l generalizing s i0 j with
  | nil => exact absurd hj (by simp)
  | cons t rest ih =>
    rw [List.map_cons, List.nodup_cons] at hnodup
    cases j with
    | zero =>
      rw [indexTxs, indexTxs_refs_other rest (addTx s t.txHash h i0) h (i0 + 1) _ ?_]
      · simpa [addTx] using kvGet_kvSet_same s.refs (txKey t.txHash) (txRefKey h i0)
      · intro t' ht' hc
        have he : t'.txHash = t.txHash := by
          simpa [List.get_cons_zero] using txKey_inj hc
        exact hnodup.1 (he ▸ List.mem_map_of_mem (fun t => t.txHash) ht')
    | succ j' =>
      have hj' : j' < rest.length := by simpa using Nat.lt_of_succ_lt_succ hj
      have := ih (addTx s t.txHash h i0) (i0 + 1) hnodup.2 j' hj'
      rw [indexTxs]
      have harith : i0 + 1 + j' = i0 + (j' + 1) := by omega
      rw [harith] at this
      simpa using this

/-- C5 (amended): for every block execution accepted by `AddBlock` whose
transaction hashes are 32 bytes long and pairwise distinct, each contained
transaction's reference is stored in the reference space under the tag
`"b"` (0x62) followed by the transaction hash, with value the
`txRefKeyFormat` rendering `"t"` (0x74) followed by the big-endian
`(height, index-within-block)` pair. -/
theorem addBlock_tx_reference (s : State) (be : BlockExecution)
    (hok : (addBlock s be).1 = Except.ok ())
    (hlen : ∀ t ∈ be.txExecutions, t.txHash.length = 32)
    (hnodup : (be.txExecutions.map (fun t => t.txHash)).Nodup)
    (i : Nat) (hi : i < be.txExecutions.length) :
    kvGet ((addBlock s be).2).refs
        (98 :: (be.txExecutions.get ⟨i, hi⟩).txHash)
      = 116 :: (u64be be.height ++ u64be i) := by
  by_cases hg : s.height > 0 ∧ be.height ≠ (s.height + 1) % two64
  · simp [addBlock, hg] at hok
  · have hkey : txKey (be.txExecutions.get ⟨i, hi⟩).txHash
        ≠ blockRefKey be.height := by
      intro hc
      have h32 : (be.txExecutions.get ⟨i, hi⟩).txHash.length = 32 :=
        hlen _ (List.get_mem be.txExecutions i hi)
      have hlen1 : (txKey (be.txExecutions.get ⟨i, hi⟩).txHash).length = 33 := by
        simp only [txKey, List.length_cons, h32]
      have hlen2 : (blockRefKey be.height).length = 9 := rfl
      rw [hc, hlen2] at hlen1
      cases hlen1
    have h2 : (addBlock s be).2
        = { indexTxs { s with height := be.height } be.height
              be.txExecutions 0 with
            refs := kvSet (indexTxs { s with height := be.height } be.height
                be.txExecutions 0).refs
              (blockRefKey be.height) (encodeBlockExecution be) } := by
      simp [addBlock, hg]
    rw [h2]
    show kvGet (kvSet _ (blockRefKey be.height) _)
        (txKey (be.txExecutions.get ⟨i, hi⟩).txHash) = _
    rw [kvGet_kvSet_ne _ _ _ _ hkey]
    simpa [txRefKey] using
      indexTxs_refs_get be.txExecutions { s with height := be.height }
        be.height 0 hnodup i hi

/-- Witness for C5 at the concrete one-transaction block. -/
theorem addBlock_tx_reference_witness :
    kvGet ((addBlock initialState c1Block).2).refs (98 :: c1TxHash)
      = 116 :: (u64be 1 ++ u64be 0) :=
  addBlock_tx_reference initialState c1Block (by decide) (by decide)
    (by decide) 0 (by decide)

/-! ## C3: `Above` and `Below` as range boundaries -/

/-- `Above` is `none` exactly when every byte of the input is `0xFF` (or
more precisely, fails the source's `c < 0xff` test). -/
theorem above_none_iff (p : Bytes) :
    Pfx.above p = none ↔ ∀ b ∈ p, ¬ b < 255 := by
  induction p with
  | nil => simp [Pfx.above]
  | cons c rest ih =>
    unfold Pfx.above
    cases hr : Pfx.above rest with
    | some r =>
      dsimp only
      constructor
      · intro h; cases h
      · intro hall
        have : Pfx.above rest = none :=
          ih.mpr (fun b hb => hall b (List.mem_cons_of_mem c hb))
        rw [this] at hr; cases hr
    | none =>
      dsimp only
      by_cases hc : c < 255
      · rw [if_pos hc]
        constructor
        · intro h; cases h
        · intro hall; exact absurd hc (hall c (List.mem_cons_self c rest))
      · rw [if_neg hc]
        constructor
        · intro _ b hb
          rcases List.mem_cons.mp hb with rfl | hb'
          · exact hc
          · exact (ih.mp hr) b hb'
        · intro _; rfl

/-- Decomposition of a successful `Above`: the source loop finds the last
byte below `0xFF`, increments it and truncates there. -/
theorem above_spec (p a : Bytes) (h : Pfx.above p = some a) :
    ∃ pre c suf, p = pre ++ c :: suf ∧ c < 255 ∧ (∀ b ∈ suf, ¬ b < 255) ∧
      a = pre ++ [c + 1] := by
  induction p generalizing a with
  | nil => cases h
  | cons c0 rest ih =>
    unfold Pfx.above at h
    cases hr : Pfx.above rest with
    | some r =>
      rw [hr] at h; dsimp only at h
      cases h
      obtain ⟨pre, c, suf, hp, hc, hsuf, hr'⟩ := ih r hr
      exact ⟨c0 :: pre, c, suf, by rw [hp]; rfl, hc, hsuf, by rw [hr']; rfl⟩
    | none =>
      rw [hr] at h; dsimp only at h
      by_cases hc : c0 < 255
      · rw [if_pos hc] at h
        cases h
        exact ⟨[], c0, rest, rfl, hc, (above_none_iff rest).mp hr, rfl⟩
      · rw [if_neg hc] at h; cases h

/-- `Below` is `none` exactly when every byte of the input is `0x00`. -/
theorem below_none_iff (p : Bytes) :
    Pfx.below p = none ↔ ∀ b ∈ p, ¬ 0 < b := by
  induction p with
  | nil => simp [Pfx.below]
  | cons c rest ih =>
    unfold Pfx.below
    cases hr : Pfx.below rest with
    | some r =>
      dsimp only
      constructor
      · intro h; cases h
      · intro hall
        have : Pfx.below rest = none :=
          ih.mpr (fun b hb => hall b (List.mem_cons_of_mem c hb))
        rw [this] at hr; cases hr
    | none =>
      dsimp only
      by_cases hc : 0 < c
      · rw [if_pos hc]
        constructor
        · intro h; cases h
        · intro hall; exact absurd hc (hall c (List.mem_cons_self c rest))
      · rw [if_neg hc]
        constructor
        · intro _ b hb
          rcases List.mem_cons.mp hb with rfl | hb'
          · exact hc
          · exact (ih.mp hr) b hb'
        · intro _; rfl

/-- Decomposition of a successful `Below`: the source loop finds the last
byte above `0x00`, decrements it and truncates there. -/
theorem below_spec (p b' : Bytes) (h : Pfx.below p = some b') :
    ∃ pre c suf, p = pre ++ c :: suf ∧ 0 < c ∧ (∀ b ∈ suf, ¬ 0 < b) ∧
      b' = pre ++ [c - 1] := by
  induction p generalizing b' with
  | nil => cases h
  | cons c0 rest ih =>
    unfold Pfx.below at h
    cases hr : Pfx.below rest with
    | some r =>
      rw [hr] at h; dsimp only at h
      cases h
      obtain ⟨pre, c, suf, hp, hc, hsuf, hr'⟩ := ih r hr
      exact ⟨c0 :: pre, c, suf, by rw [hp]; rfl, hc, hsuf, by rw [hr']; rfl⟩
    | none =>
      rw [hr] at h; dsimp only at h
      by_cases hc : 0 < c0
      · rw [if_pos hc] at h
        cases h
        exact ⟨[], c0, rest, rfl, hc, (below_none_iff rest).mp hr, rfl⟩
      · rw [if_neg hc] at h; cases h

/-- A list of saturated bytes that is longer than a byte string is never
lexicographically below it. -/
theorem not_lex_of_big : ∀ (q l : Bytes), IsBytes q →
    (∀ b ∈ l, ¬ b < 255) → q.length < l.length → ¬ BLt l q := by
  intro q
  induction q with
  | nil => intro l _ _ _; exact List.Lex.not_nil_right _ _
  | cons b q' ih =>
    intro l hq hl hlen
    cases l with
    | nil => exact absurd hlen (by simp)
    | cons x l' =>
      intro hlex
      cases hlex with
      | rel hxb =>
        have hx : ¬ x < 255 := hl x (List.mem_cons_self x l')
        have hb : b < 256 := hq b (List.mem_cons_self b q')
        omega
      | cons hlex' =>
        refine ih l' (fun c hc => hq c (List.mem_cons_of_mem b hc))
          (fun c hc => hl c (List.mem_cons_of_mem _ hc)) ?_ hlex'
        have := hlen
        simp only [List.length_cons] at this
        omega

/-- The key minimality step: a byte string strictly below
`pre ++ [c + 1]` is never strictly above `pre ++ c :: tail` when `tail` is
saturated and at least as long. -/
theorem not_lex_pad_of_lt : ∀ (pre : Bytes) (c : Nat) (tail q : Bytes),
    IsBytes q → (∀ b ∈ tail, ¬ b < 255) → q.length ≤ tail.length →
    BLt q (pre ++ [c + 1]) → ¬ BLt (pre ++ c :: tail) q := by
  intro pre
  induction pre with
  | nil =>
    intro c tail q hq htail hlen hlt
    cases q with
    | nil => exact List.Lex.not_nil_right _ _
    | cons b q' =>
      simp only [List.nil_append] at hlt ⊢
      cases hlt with
      | rel hbc =>
        intro hlex
        cases hlex with
        | rel hcb => omega
        | cons hlex' =>
          refine not_lex_of_big q' tail
            (fun x hx => hq x (List.mem_cons_of_mem _ hx)) htail ?_ hlex'
          have := hlen
          simp only [List.length_cons] at this
          omega
      | cons hlt' => exact absurd hlt' (List.Lex.not_nil_right _ _)
  | cons d pre' ih =>
    intro c tail q hq htail hlen hlt
    cases q with
    | nil => exact List.Lex.not_nil_right _ _
    | cons b q' =>
      simp only [List.cons_append] at hlt ⊢
      cases hlt with
      | rel hbd =>
        intro hlex
        cases hlex with
        | rel hdb => omega
        | cons _ => omega
      | cons hlt' =>
        intro hlex
        cases hlex with
        | rel hdb => omega
        | cons hlex' =>
          exact ih c tail q' (fun x hx => hq x (List.mem_cons_of_mem _ hx))
            htail (by simp only [List.length_cons] at hlen; omega) hlt' hlex'

/-- Lexicographic comparison of byte strings is trichotomous. -/
theorem blt_trichotomy (a b : Bytes) : BLt a b ∨ a = b ∨ BLt b a := by
  induction a generalizing b with
  | nil =>
    cases b with
    | nil => exact Or.inr (Or.inl rfl)
    | cons y ys => exact Or.inl List.Lex.nil
  | cons x xs ih =>
    cases b with
    | nil => exact Or.inr (Or.inr List.Lex.nil)
    | cons y ys =>
      rcases Nat.lt_trichotomy x y with hxy | rfl | hyx
      · exact Or.inl (List.Lex.rel hxy)
      · rcases ih ys with h | rfl | h
        · exact Or.inl (List.Lex.cons h)
        · exact Or.inr (Or.inl rfl)
        · exact Or.inr (Or.inr (List.Lex.cons h))
      · exact Or.inr (Or.inr (List.Lex.rel hyx))

/-- `Above`'s result is strictly greater than every string carrying the
prefix. -/
theorem above_strictUpper (p a : Bytes) (h : Pfx.above p = some a) :
    StrictUpper p a := by
  obtain ⟨pre, c, suf, hp, hc, _, ha⟩ := above_spec p a h
  intro s hs
  obtain ⟨t, rfl⟩ := hs
  rw [hp, ha]
  have : pre ++ c :: suf ++ t = pre ++ (c :: (suf ++ t)) := by simp
  rw [this]
  exact List.Lex.append_left (· < ·) (List.Lex.rel (by omega)) pre

/-- `Above`'s result is minimal among strict upper bounds made of bytes. -/
theorem above_minimal (p a q : Bytes) (h : Pfx.above p = some a)
    (hq : IsBytes q) (hub : StrictUpper p q) : ¬ BLt q a := by
  obtain ⟨pre, c, suf, hp, hc, hsuf, ha⟩ := above_spec p a h
  intro hlt
  have hs : p <+: p ++ List.replicate q.length 255 := ⟨_, rfl⟩
  have hsq : BLt (p ++ List.replicate q.length 255) q := hub _ hs
  have htail : ∀ b ∈ suf ++ List.replicate q.length 255, ¬ b < 255 := by
    intro b hb
    rcases List.mem_append.mp hb with hb' | hb'
    · exact hsuf b hb'
    · have := List.eq_of_mem_replicate hb'
      omega
  have hlen : q.length ≤ (suf ++ List.replicate q.length 255).length := by
    simp
  have hshape : p ++ List.replicate q.length 255
      = pre ++ c :: (suf ++ List.replicate q.length 255) := by
    rw [hp]; simp
  rw [ha] at hlt
  have := not_lex_pad_of_lt pre c (suf ++ List.replicate q.length 255) q
    hq htail hlen hlt
  rw [← hshape] at this
  exact this hsq

/-- `Below`'s result is strictly less than every string carrying the
prefix. -/
theorem below_strictLower (p b' : Bytes) (h : Pfx.below p = some b') :
    StrictLower p b' := by
  obtain ⟨pre, c, suf, hp, hc, _, hb⟩ := below_spec p b' h
  intro s hs
  obtain ⟨t, rfl⟩ := hs
  rw [hp, hb]
  have : pre ++ c :: suf ++ t = pre ++ (c :: (suf ++ t)) := by simp
  rw [this]
  exact List.Lex.append_left (· < ·) (List.Lex.rel (by omega)) pre

/-- C3 (amended): for a byte prefix `p`, `Above(p)` is `none` exactly when
`p` is all `0xFF` and otherwise the unique minimal byte string strictly
greater than every string beginning with `p`; `Below(p)` is `none` exactly
when `p` is all `0x00` and otherwise a byte string strictly less than
every string beginning with `p`. -/
theorem above_below_bounds (p : Bytes) (hp : IsBytes p) :
    (Pfx.above p = none ↔ ∀ b ∈ p, b = 255) ∧
    (∀ a, Pfx.above p = some a →
       IsBytes a ∧ StrictUpper p a ∧
       (∀ q, IsBytes q → StrictUpper p q → ¬ BLt q a) ∧
       (∀ q, IsBytes q → StrictUpper p q →
          (∀ r, IsBytes r → StrictUpper p r → ¬ BLt r q) → q = a)) ∧
    (Pfx.below p = none ↔ ∀ b ∈ p, b = 0) ∧
    (∀ bl, Pfx.below p = some bl → IsBytes bl ∧ StrictLower p bl) := by
  refine ⟨?_, ?_, ?_, ?_⟩
  · rw [above_none_iff]
    constructor
    · intro h b hb
      have h1 := hp b hb
      have h2 := h b hb
      omega
    · intro h b hb
      have := h b hb
      omega
  · intro a ha
    have hBytes : IsBytes a := by
      obtain ⟨pre, c, suf, hp', hc, _, ha'⟩ := above_spec p a ha
      intro b hb
      rw [ha'] at hb
      rcases List.mem_append.mp hb with hb' | hb'
      · exact hp b (by rw [hp']; exact List.mem_append.mpr (Or.inl hb'))
      · have : b = c + 1 := by simpa using hb'
        omega
    refine ⟨hBytes, above_strictUpper p a ha,
      fun q hq hub => above_minimal p a q ha hq hub, ?_⟩
    intro q hq hub hmin
    rcases blt_trichotomy q a with h | h | h
    · exact absurd h (above_minimal p a q ha hq hub)
    · exact h
    · exact absurd h (hmin a hBytes (above_strictUpper p a ha))
  · rw [below_none_iff]
    constructor
    · intro h b hb
      have := h b hb
      omega
    · intro h b hb
      have := h b hb
      omega
  · intro bl hbl
    have hBytes : IsBytes bl := by
      obtain ⟨pre, c, suf, hp', hc, _, hb'⟩ := below_spec p bl hbl
      intro b hb
      rw [hb'] at hb
      rcases List.mem_append.mp hb with hb2 | hb2
      · exact hp b (by rw [hp']; exact List.mem_append.mpr (Or.inl hb2))
      · have hbc : b = c - 1 := by simpa using hb2
        have := hp c (by
          rw [hp']
          exact List.mem_append.mpr (Or.inr (List.mem_cons_self c suf)))
        omega
    exact ⟨hBytes, below_strictLower p bl hbl⟩

/-- Counterexample for C3: at `p = [0x01]`, `Below` returns `[0x00]`, yet
`[0x00, 0x00]` is also strictly below every string beginning with `p` and
is strictly greater than `[0x00]` — so `Below(p)` is not the maximal such
string. -/
theorem below_not_maximal_counterexample :
    Pfx.below [1] = some [0] ∧ IsBytes [0, 0] ∧ StrictLower [1] [0, 0] ∧
    BLt [0] [0, 0] := by
  refine ⟨rfl, by decide, ?_, ?_⟩
  · intro s hs
    obtain ⟨t, rfl⟩ := hs
    exact List.Lex.rel (by omega)
  · exact List.Lex.cons List.Lex.nil

/-- Witness for C3 at concrete prefixes. -/
theorem above_below_bounds_witness :
    IsBytes [1, 255] ∧ Pfx.above [1, 255] = some [2] ∧
    StrictUpper [1, 255] [2] ∧ Pfx.below [0, 0] = none :=
  ⟨by decide, rfl,
   ((above_below_bounds [1, 255] (by decide)).2.1 [2] rfl).2.1,
   (above_below_bounds [0, 0] (by decide)).2.2.1.mpr (by decide)⟩

/-! ## C4: reverse iterator physical bounds -/

/-- Counterexample for C4: with `start` given, the code starts the physical
scan at `Key(start)` (not at `Above()`) and ends at `Below()` (not at
`Key(start)`). -/
theorem reverse_bounds_counterexample :
    reverseIteratorBounds [1] (some [5]) none
      ≠ reverseIteratorBoundsClaimed [1] (some [5]) none ∧
    reverseIteratorBounds [1] (some [5]) none
      = { pstart := some [1, 5], pend := some [0] } ∧
    reverseIteratorBoundsClaimed [1] (some [5]) none
      = { pstart := some [2], pend := some [1, 5] } := by
  refine ⟨by decide, by decide, by decide⟩

/-- C4 (amended): the reverse iterator starts the physical scan at
`Above()` when `start` is absent and at `Key(start)` when given; the
physical end bound is `Below()` when `end` is absent and `Key(end)` when
given; `Above()` never carries the prefix; and the first physical element
is discarded exactly when it equals `Above()`. -/
theorem reverse_iterator_physical_bounds (p : Bytes)
    (start stop : Option Bytes)
    (fn : Option Bytes → Option Bytes → List (Bytes × Bytes)) :
    ((reverseIteratorBounds p start stop).pstart =
       match start with
       | none => Pfx.above p
       | some s => some (Pfx.key p s)) ∧
    ((reverseIteratorBounds p start stop).pend =
       match stop with
       | none => Pfx.below p
       | some e => some (Pfx.key p e)) ∧
    (∀ a, Pfx.above p = some a → ¬ p <+: a) ∧
    (fn (reverseIteratorBounds p start stop).pstart
        (reverseIteratorBounds p start stop).pend = [] →
      reverseIteratorSource p start stop fn = []) ∧
    (∀ k v rest,
      fn (reverseIteratorBounds p start stop).pstart
          (reverseIteratorBounds p start stop).pend = (k, v) :: rest →
      reverseIteratorSource p start stop fn =
        if bytesEqualOpt k (Pfx.above p) then rest else (k, v) :: rest) := by
  refine ⟨rfl, rfl, ?_, ?_, ?_⟩
  · intro a ha hpa
    obtain ⟨pre, c, suf, hp', hc, _, ha'⟩ := above_spec p a ha
    obtain ⟨t, hta⟩ := hpa
    rw [hp', ha'] at hta
    rw [List.append_assoc, List.cons_append] at hta
    have h2 : c :: (suf ++ t) = [c + 1] := List.append_cancel_left hta
    injection h2 with h3 _
    omega
  · intro hfn
    simp [reverseIteratorSource, hfn, skipOne]
  · intro k v rest hfn
    simp [reverseIteratorSource, hfn, skipOne]

/-- Witness for C4: a stream whose first key equals `Above()` has it
discarded, and `Above()` does not carry the prefix. -/
theorem reverse_iterator_physical_bounds_witness :
    reverseIteratorSource [1] none none c4Fn = [([1, 3], [7])] ∧
    ¬ ([1] : Bytes) <+: [2] := by
  constructor
  · have h := (reverse_iterator_physical_bounds [1] none none c4Fn).2.2.2.2
      [2] [9] [([1, 3], [7])] rfl
    simpa using h
  · exact (reverse_iterator_physical_bounds [1] none none c4Fn).2.2.1 [2] rfl

/-! ## C9: prefix containment and terminal invalidity -/

/-- A single iterator operation keeps the invalid flag set. -/
theorem step_invalid (op : IterOp) (pj : PIter) (hj : pj.invalid = true) :
    (IterOp.step op pj).invalid = true := by
  cases op
  · simp [IterOp.step, PIter.next, hj]
  · simp [IterOp.step, PIter.valid, PIter.validate, hj]

/-- Any sequence of iterator operations keeps the invalid flag set. -/
theorem runOps_invalid (ops : List IterOp) : ∀ (pi : PIter),
    pi.invalid = true → (runOps ops pi).invalid = true := by
  induction ops with
  | nil => intro pi hi; exact hi
  | cons op ops' ih => intro pi hi; exact ih _ (step_invalid op pi hi)

/-- C9: whenever a prefixed iterator reports valid, the underlying key
carries the prefix (and the yielded key is its suffix); and once the
iterator is invalid, it stays invalid across every sequence of operations,
reporting not-valid and yielding no key or value. -/
theorem prefix_iterator_contained_terminal :
    (∀ pi : PIter, (pi.valid).1 = true →
       ∃ k v rest, (pi.valid).2.source = (k, v) :: rest ∧ pi.pfx <+: k ∧
         (pi.valid).2.key = some (Pfx.suffix pi.pfx k)) ∧
    (∀ pi : PIter, pi.invalid = true → ∀ ops : List IterOp,
       (runOps ops pi).invalid = true ∧ ((runOps ops pi).valid).1 = false ∧
       (runOps ops pi).key = none ∧ (runOps ops pi).value = none) := by
  constructor
  · intro pi hv
    by_cases hi : pi.invalid
    · simp [PIter.valid, PIter.validate, hi] at hv
    · cases hs : pi.source with
      | nil => simp [PIter.valid, PIter.validate, hi, hs] at hv
      | cons e rest =>
        obtain ⟨k, v⟩ := e
        by_cases hpfx : pi.pfx.isPrefixOf k
        · refine ⟨k, v, rest, ?_, List.isPrefixOf_iff_prefix.mp hpfx, ?_⟩
          · simp [PIter.valid, PIter.validate, hi, hs, hpfx]
          · simp [PIter.valid, PIter.validate, PIter.key, hi, hs, hpfx]
        · simp [PIter.valid, PIter.validate, hi, hs, hpfx] at hv
  · intro pi hi ops
    have hrun := runOps_invalid ops pi hi
    refine ⟨hrun, ?_, ?_, ?_⟩
    · simp [PIter.valid, PIter.validate, hrun]
    · simp [PIter.key, hrun]
    · simp [PIter.value, hrun]

/-- Witness for C9 at a concrete valid iterator and a concrete invalid
one. -/
theorem prefix_iterator_contained_terminal_witness :
    (∃ k v rest,
       ((PIter.mk [1] [([1, 5], [9])] false).valid).2.source
         = (k, v) :: rest ∧
       ([1] : Bytes) <+: k ∧
       ((PIter.mk [1] [([1, 5], [9])] false).valid).2.key
         = some (Pfx.suffix [1] k)) ∧
    (runOps [IterOp.next, IterOp.valid] (PIter.mk [1] [] true)).invalid
      = true :=
  ⟨(prefix_iterator_contained_terminal).1
      (PIter.mk [1] [([1, 5], [9])] false) (by decide),
   ((prefix_iterator_contained_terminal).2 (PIter.mk [1] [] true) (by decide)
      [IterOp.next, IterOp.valid]).1⟩

end Burrow
